import Mathlib

set_option autoImplicit false

/-!
Verification development for the c2java repository: a structural
source-to-source translator (Lexer -> Parser -> Symbol/Type Resolver ->
Code Generator, with a Library Mapping Table).  The repository ships only
the C fixture corpus; the translator stages themselves are therefore
modelled from the specification, while fixture functions (factorial,
multiply_2x2, ...) are transcribed directly from the sample sources.
-/

namespace C2Java

/-! ## Fixture transcriptions -/

/-- Two's-complement wrap of a mathematical integer into the 32-bit `int`
range `[-2^31, 2^31)`, modelling overflow of C `int` arithmetic. -/
def wrap32 (x : Int) : Int :=
  (x + 2 ^ 31) % 2 ^ 32 - 2 ^ 31

/-- Source transcription: `factorial` from
`src/translator/samples/all_features.c` lines 6-9 (identical definition in
`src/lib_translator/test_j2c_lib.c` lines 10-15):
`if (n <= 1) return 1; return n * factorial(n - 1);`.  The function is
declared over C `int`, so the multiplication result wraps to 32-bit two's
complement; operations whose operands and result stay in range for in-range
arguments (the comparison and `n - 1`) are left exact. -/
def factorial (n : Int) : Int :=
  if n ≤ 1 then 1
  else wrap32 (n * factorial (n - 1))
termination_by n.toNat
decreasing_by
  simp_wf
  omega

/-- Source transcription: 2-D element access `M[i][j]` on an int matrix held
as a row list, out-of-range reads defaulting to 0 (never exercised by the
fixture, whose indices stay in range). -/
def matGet (M : List (List Int)) (i j : Nat) : Int :=
  (M.getD i []).getD j 0

/-- Source transcription: `multiply_2x2` from
`src/translator/samples/matrix_multiply.c` lines 4-11: `C[i][j] = 0;` then
`for k: C[i][j] += A[i][k] * B[k][j];` over `i, j, k < 2`. -/
def multiply_2x2 (A B : List (List Int)) : List (List Int) :=
  (List.range 2).map (fun i =>
    (List.range 2).map (fun j =>
      (List.range 2).foldl (fun acc k => acc + matGet A i k * matGet B k j) 0))

/-- Source transcription: `print_mat` from
`src/translator/samples/matrix_multiply.c` lines 13-18: each row prints
`"%d "` per element then a newline. -/
def print_mat (M : List (List Int)) : String :=
  String.join ((List.range 2).map (fun i =>
    String.join ((List.range 2).map (fun j => toString (matGet M i j) ++ " ")) ++ "\n"))

/-- Source transcription: matrix `A` from `matrix_multiply.c` main. -/
def matrixA : List (List Int) := [[1, 2], [3, 4]]

/-- Source transcription: matrix `B` from `matrix_multiply.c` main. -/
def matrixB : List (List Int) := [[5, 6], [7, 8]]

/-- Source transcription: everything `main` of `matrix_multiply.c` prints,
in source order. -/
def matrix_multiply_main_output : String :=
  "Matrix A:\n" ++ print_mat matrixA ++
  "Matrix B:\n" ++ print_mat matrixB ++
  "A x B =\n" ++ print_mat (multiply_2x2 matrixA matrixB)

/-- Source transcription: the trailing expected-output comment of
`src/translator/samples/matrix_multiply.c`. -/
def matrix_multiply_expected : String :=
  "Matrix A:\n1 2 \n3 4 \nMatrix B:\n5 6 \n7 8 \nA x B =\n19 22 \n43 50 \n"

/-! ## Increment-expression semantics (spec 4.5, testable property 3) -/

/-- Modelled from the spec: the expression forms needed for the
increment-ordering property; the translator source is absent from the
repository, so the semantics the generated program must reproduce is taken
from spec 4.5: "a prefix form yields the updated value to the enclosing
expression; a postfix form yields the prior value". -/
inductive IExpr where
  | lit (n : Int)
  | var (x : String)
  | add (l r : IExpr)
  | preInc (x : String)
  | postInc (x : String)
deriving DecidableEq

/-- Variable environment for the increment semantics. -/
abbrev Env := List (String × Int)

/-- Environment lookup (missing names read 0; never exercised here). -/
def lookupEnv (env : Env) (x : String) : Int :=
  match env with
  | [] => 0
  | (y, v) :: rest => if y = x then v else lookupEnv rest x

/-- Environment update, inserting the name when absent. -/
def updateEnv (env : Env) (x : String) (v : Int) : Env :=
  match env with
  | [] => [(x, v)]
  | (y, w) :: rest => if y = x then (y, v) :: rest else (y, w) :: updateEnv rest x v

/-- Modelled from the spec: left-to-right expression evaluation with the
spec's pre/post increment value rules (spec 4.5). -/
def evalI (env : Env) : IExpr → Int × Env
  | .lit n => (n, env)
  | .var x => (lookupEnv env x, env)
  | .add l r =>
      let p := evalI env l
      let q := evalI p.2 r
      (p.1 + q.1, q.2)
  | .preInc x => (lookupEnv env x + 1, updateEnv env x (lookupEnv env x + 1))
  | .postInc x => (lookupEnv env x, updateEnv env x (lookupEnv env x + 1))

/-- Modelled from the spec: executing the statement `x = e;`. -/
def execAssign (env : Env) (x : String) (e : IExpr) : Env :=
  updateEnv (evalI env e).2 x (evalI env e).1

/-! ## Switch fall-through semantics (spec 4.2/4.5, glossary "Fall-through") -/

/-- Modelled from the spec: one switch case arm of the fixture shape — an
integer label, the lines its body prints, and whether the body ends in
`break`. -/
structure CaseArm where
  label : Int
  body : List String
  endsWithBreak : Bool
deriving DecidableEq

/-- Modelled from the spec: execution from a matched arm onward — "execution
continues into the next case body absent an explicit exit"; falling off the
last case enters the trailing default. -/
def runFrom : List CaseArm → List String → List String
  | [], dflt => dflt
  | arm :: rest, dflt =>
      if arm.endsWithBreak then arm.body
      else arm.body ++ runFrom rest dflt

/-- Modelled from the spec: switch execution — scan the arms for the first
label equal to the selector and run from it with fall-through; no match runs
the default. -/
def execSwitch (sel : Int) (arms : List CaseArm) (dflt : List String) : List String :=
  match arms with
  | [] => dflt
  | arm :: rest =>
      if arm.label = sel then runFrom (arm :: rest) dflt
      else execSwitch sel rest dflt

/-- Source transcription: the switch of
`src/translator/samples/all_features.c` lines 94-101 — cases 1, 2, 3 print
`Mon`/`Tue`/`Wed` then break; default prints `Other`. -/
def allFeaturesArms : List CaseArm :=
  [⟨1, ["Mon\n"], true⟩, ⟨2, ["Tue\n"], true⟩, ⟨3, ["Wed\n"], true⟩]

/-! ## Types, declarations, resolver (spec 3, 4.3) -/

/-- Modelled from the spec: the resolved types the claims exercise (spec 3
"Type", restricted to the constructors the fixtures need). -/
inductive CType where
  | intT
  | floatT
  | doubleT
  | charT
  | structT (name : String)
deriving DecidableEq

/-- Modelled from the spec: a VariableDeclaration AST node (spec 3
"AST Node") with its declared base type and optional constant initializer. -/
structure VariableDeclaration where
  name : String
  declaredType : CType
  init : Option Int
deriving DecidableEq

/-- Modelled from the spec: "Comma-only multi-declaration splits into N
VariableDeclaration nodes sharing the declared base type" (spec 4.2). -/
def splitMultiDecl (base : CType) (declarators : List (String × Option Int)) :
    List VariableDeclaration :=
  declarators.map (fun d => ⟨d.1, base, d.2⟩)

/-- Modelled from the spec: the error taxonomy of spec 7. -/
inductive TransError where
  | lexError (pos : Nat)
  | parseError (msg : String)
  | typeError (msg : String)
  | unsupportedConstruct (msg : String)
deriving DecidableEq

/-- Equality of pipeline results is decidable, so concrete runs of the
modelled stages can be checked by evaluation. -/
instance {ε α : Type} [DecidableEq ε] [DecidableEq α] : DecidableEq (Except ε α) :=
  fun x y =>
    match x, y with
    | .ok a, .ok b =>
        if h : a = b then isTrue (by rw [h])
        else isFalse (by intro hc; cases hc; exact h rfl)
    | .error a, .error b =>
        if h : a = b then isTrue (by rw [h])
        else isFalse (by intro hc; cases hc; exact h rfl)
    | .ok _, .error _ => isFalse (by intro hc; cases hc)
    | .error _, .ok _ => isFalse (by intro hc; cases hc)

/-- One scope: names bound to resolved types, innermost binding first. -/
abbrev Scope := List (String × CType)

/-- Scope stack, innermost scope first (spec 4.3). -/
abbrev ScopeStack := List Scope

/-- Lookup within a single scope. -/
def lookupScope (s : Scope) (x : String) : Option CType :=
  match s with
  | [] => none
  | (y, t) :: rest => if y = x then some t else lookupScope rest x

/-- Modelled from the spec: innermost-first name resolution across the scope
stack ("shadowing across nested scopes is permitted and resolved
innermost-first", spec 3). -/
def lookupVar : ScopeStack → String → Option CType
  | [], _ => none
  | s :: rest, x =>
      match lookupScope s x with
      | some t => some t
      | none => lookupVar rest x

/-- Modelled from the spec: "Variable declarations insert into the current
scope; re-declaration of the same name in the same scope is a TypeError"
(spec 4.3). -/
def declareVar (stack : ScopeStack) (x : String) (t : CType) :
    Except TransError ScopeStack :=
  match stack with
  | [] => .error (.typeError ("no open scope for " ++ x))
  | s :: rest =>
      match lookupScope s x with
      | some _ => .error (.typeError ("redeclaration of " ++ x))
      | none => .ok (((x, t) :: s) :: rest)

/-- Modelled from the spec: identifier-expression resolution — an
"unresolved identifier ... raises a TypeError" (spec 4.3/4.5 failure
clauses). -/
def resolveIdent (stack : ScopeStack) (x : String) : Except TransError CType :=
  match lookupVar stack x with
  | some t => .ok t
  | none => .error (.typeError ("undeclared identifier " ++ x))

/-! ## Library Mapping Table (spec 4.4) -/

/-- Modelled from the spec: a Library Call Descriptor's source pattern —
callee name plus arity shape; variadic entries (formatted I/O) accept the
format argument plus any number of value arguments. -/
structure LibEntry where
  name : String
  arity : Nat
  variadic : Bool
deriving DecidableEq

/-- Modelled from the spec: the static registry of recognized
standard-library call patterns (spec 4.4's enumerated families). -/
def libraryTable : List LibEntry :=
  [⟨"printf", 1, true⟩, ⟨"scanf", 1, true⟩,
   ⟨"strlen", 1, false⟩, ⟨"strcmp", 2, false⟩, ⟨"strcpy", 2, false⟩,
   ⟨"atoi", 1, false⟩, ⟨"atof", 1, false⟩,
   ⟨"isalpha", 1, false⟩, ⟨"isdigit", 1, false⟩,
   ⟨"toupper", 1, false⟩, ⟨"tolower", 1, false⟩,
   ⟨"sqrt", 1, false⟩, ⟨"pow", 2, false⟩, ⟨"abs", 1, false⟩, ⟨"fabs", 1, false⟩,
   ⟨"rand", 0, false⟩, ⟨"srand", 1, false⟩,
   ⟨"malloc", 1, false⟩, ⟨"free", 1, false⟩]

/-- Table lookup by callee name (spec 4.4 `lookup`). -/
def lookupLib (nm : String) : Option LibEntry :=
  libraryTable.find? (fun e => e.name = nm)

/-- Does the call's argument count match the entry's declared shape? -/
def shapeMatches (e : LibEntry) (argc : Nat) : Bool :=
  if e.variadic then decide (e.arity ≤ argc) else decide (e.arity = argc)

/-- Modelled from the spec: the generator's emission strategy for a call
(spec 3 "Library Call Descriptor"). -/
inductive EmissionStrategy where
  | freeCall (target : String)
  | passthrough (target : String)
deriving DecidableEq

/-- Modelled from the spec: call emission consulting the Library Mapping
Table — "any Library Mapping Table lookup miss for a call whose shape does
not match a known pattern and is not a plain user-defined call raises an
UnsupportedConstructError"; unmapped names pass through as plain calls
(spec 4.4/4.5). -/
def emitCall (nm : String) (argc : Nat) : Except TransError EmissionStrategy :=
  match lookupLib nm with
  | some e =>
      if shapeMatches e argc then .ok (.freeCall e.name)
      else .error (.unsupportedConstruct ("call shape mismatch for " ++ nm))
  | none => .ok (.passthrough nm)

/-! ## Struct aggregate initialization (spec 4.5, testable property 6) -/

/-- Modelled from the spec: one declared struct field (spec 3
"struct-of-named-fields"). -/
structure StructField where
  name : String
  ftype : CType
deriving DecidableEq

/-- Source transcription: the fields of `struct Point` from
`src/test/test11_struct.c` lines 5-8. -/
def pointFields : List StructField := [⟨"x", .intT⟩, ⟨"y", .intT⟩]

/-- Modelled from the spec: resolving an ordered brace initializer against
the declared fields — "resolve each field in declaration order and reject an
initializer with more values than declared fields as a TypeError"
(spec 8). -/
def resolveStructInit (fields : List StructField) (vals : List Int) :
    Except TransError (List (String × Int)) :=
  if fields.length < vals.length then
    .error (.typeError "excess initializer values")
  else
    .ok ((fields.zip vals).map (fun p => (p.1.name, p.2)))

/-! ## Two-pass function resolution (spec 4.3, design note 2) -/

/-- Modelled from the spec: a function signature (spec 3
"function-signature"). -/
structure FunSig where
  name : String
  paramTypes : List CType
  ret : CType
deriving DecidableEq

/-- Modelled from the spec: a top-level declaration — a prototype-only
FunctionDeclaration, or a definition whose body is abstracted to its call
sites (callee name and argument count). -/
inductive TopDecl where
  | proto (sig : FunSig)
  | definition (sig : FunSig) (calls : List (String × Nat))
deriving DecidableEq

/-- Modelled from the spec: pass one — "first collecting all top-level
signatures" (design note: two-pass function resolution). -/
def collectSigs : List TopDecl → List FunSig
  | [] => []
  | .proto s :: rest => s :: collectSigs rest
  | .definition s _ :: rest => s :: collectSigs rest

/-- Signature lookup by function name. -/
def lookupSig (sigs : List FunSig) (nm : String) : Option FunSig :=
  sigs.find? (fun s => s.name = nm)

/-- Modelled from the spec: resolving one call site against the collected
signatures; a missing callee or an argument-count mismatch is a TypeError
(spec 4.3). -/
def resolveCall (sigs : List FunSig) (c : String × Nat) : Except TransError FunSig :=
  match lookupSig sigs c.1 with
  | some s =>
      if s.paramTypes.length = c.2 then .ok s
      else .error (.typeError ("arity mismatch " ++ c.1))
  | none => .error (.typeError ("unresolved function " ++ c.1))

/-- Resolve every call site of one body, first error wins. -/
def resolveCalls (sigs : List FunSig) : List (String × Nat) → Except TransError Unit
  | [] => .ok ()
  | c :: cs =>
      match resolveCall sigs c with
      | .ok _ => resolveCalls sigs cs
      | .error e => .error e

/-- Modelled from the spec: pass two — "then resolving bodies" against the
full signature table. -/
def resolveBodies (sigs : List FunSig) : List TopDecl → Except TransError Unit
  | [] => .ok ()
  | .proto _ :: rest => resolveBodies sigs rest
  | .definition _ calls :: rest =>
      match resolveCalls sigs calls with
      | .ok _ => resolveBodies sigs rest
      | .error e => .error e

/-- Modelled from the spec: two-pass resolution of a whole translation unit,
run "before code generation begins" (spec 4.3). -/
def resolveUnit (prog : List TopDecl) : Except TransError Unit :=
  resolveBodies (collectSigs prog) prog

/-- All call sites of a translation unit, in source order. -/
def callSites : List TopDecl → List (String × Nat)
  | [] => []
  | .proto _ :: rest => callSites rest
  | .definition _ calls :: rest => calls ++ callSites rest

/-! ## Lexer (spec 4.1, data model "Token", testable property 2)

Modelled from the spec: the repository carries no lexer source, so
`tokenize` below follows spec 4.1 — longest-match splitting of compound
operators, skipping of whitespace and of line and block comments without
emitting tokens, classification of numeric literals as integer or floating
by the presence of a fractional part or exponent suffix (lowercase `e`,
optional sign, optional `f` suffix), string and character literals, and a
`LexError` position on unrecognized or unterminated input.  Character
literals carry a single plain or single-escaped character. -/

/-- The double-quote character (written by code to keep lexemes explicit). -/
def dquote : Char := Char.ofNat 34

/-- The single-quote character. -/
def squote : Char := Char.ofNat 39

/-- The backslash character. -/
def bslash : Char := Char.ofNat 92

/-- Whitespace characters skipped between tokens (spec 4.1). -/
def isWsChar (c : Char) : Bool :=
  c == ' ' || c == '\t' || c == '\n' || c == '\r'

/-- ASCII decimal digit. -/
def isDigitChar (c : Char) : Bool :=
  48 ≤ c.val && c.val ≤ 57

/-- ASCII letter. -/
def isAlphaChar (c : Char) : Bool :=
  (97 ≤ c.val && c.val ≤ 122) || (65 ≤ c.val && c.val ≤ 90)

/-- Identifier head character: letter or underscore. -/
def isIdentStart (c : Char) : Bool :=
  isAlphaChar c || c == '_'

/-- Identifier continuation character. -/
def isIdentChar (c : Char) : Bool :=
  isIdentStart c || isDigitChar c

/-- The keyword list of the modelled source subset. -/
def keywords : List (List Char) :=
  ["int", "float", "char", "double", "long", "short", "void", "if", "else",
   "for", "while", "do", "switch", "case", "default", "break", "continue",
   "return", "struct", "enum", "unsigned", "signed", "sizeof"].map String.toList

/-- Compound two-character operators split by longest match (spec 4.1). -/
def isTwoOp (a b : Char) : Bool :=
  (a == '=' && b == '=') || (a == '!' && b == '=') ||
  (a == '<' && b == '=') || (a == '>' && b == '=') ||
  (a == '&' && b == '&') || (a == '|' && b == '|') ||
  (a == '+' && b == '+') || (a == '-' && b == '-') ||
  (a == '+' && b == '=') || (a == '-' && b == '=') ||
  (a == '*' && b == '=') || (a == '/' && b == '=') ||
  (a == '%' && b == '=') || (a == '<' && b == '<') ||
  (a == '>' && b == '>') || (a == '-' && b == '>')

/-- Single-character operator characters. -/
def isOpChar (c : Char) : Bool :=
  c == '+' || c == '-' || c == '*' || c == '/' || c == '%' ||
  c == '<' || c == '>' || c == '=' || c == '!' || c == '&' ||
  c == '|' || c == '^' || c == '~' || c == '?'

/-- Punctuation characters. -/
def isPunctChar (c : Char) : Bool :=
  c == '(' || c == ')' || c == Char.ofNat 123 || c == Char.ofNat 125 ||
  c == '[' || c == ']' || c == ',' || c == ';' || c == ':' || c == '.' ||
  c == '#'

/-- Token kinds (spec 3 "Token"; end-of-input terminates the sequence
rather than appearing in it). -/
inductive TokKind where
  | identTok
  | intLit
  | floatLit
  | strLit
  | charLit
  | keywordTok
  | opTok
  | punctTok
deriving DecidableEq

/-- A token: kind, lexeme, and source position as a character offset
(spec 3 "Token"; immutable once produced). -/
structure Token where
  kind : TokKind
  lexeme : List Char
  pos : Nat
deriving DecidableEq

/-- Keyword-vs-identifier classification of a scanned word. -/
def wordKind (lex : List Char) : TokKind :=
  if keywords.contains lex then .keywordTok else .identTok

/-- Scan an optional fractional part: a decimal point followed by at least
one digit.  Returns the scanned part (empty when absent) and the rest. -/
def scanFrac (cs : List Char) : List Char × List Char :=
  match cs with
  | d1 :: d2 :: r2 =>
      if d1 == '.' && isDigitChar d2 then
        (d1 :: d2 :: r2.takeWhile isDigitChar, r2.dropWhile isDigitChar)
      else ([], cs)
  | _ => ([], cs)

/-- Scan an optional exponent suffix: `e`, an optional sign, and at least
one digit.  Returns the scanned part (empty when absent) and the rest. -/
def scanExpPart (cs : List Char) : List Char × List Char :=
  match cs with
  | e1 :: s :: r2 =>
      if e1 == 'e' && isDigitChar s then
        (e1 :: s :: r2.takeWhile isDigitChar, r2.dropWhile isDigitChar)
      else if e1 == 'e' && (s == '+' || s == '-') then
        match r2 with
        | d :: r3 =>
            if isDigitChar d then
              (e1 :: s :: d :: r3.takeWhile isDigitChar, r3.dropWhile isDigitChar)
            else ([], cs)
        | [] => ([], cs)
      else ([], cs)
  | _ => ([], cs)

/-- Scan an optional `f` floating suffix. -/
def scanSuf (cs : List Char) : List Char × List Char :=
  match cs with
  | s :: r => if s == 'f' then ([s], r) else ([], cs)
  | [] => ([], cs)

/-- Scan a numeric literal whose first digit `c` is already consumed:
digits, then an optional `. digits` fraction, an optional `e [+|-] digits`
exponent, and an optional `f` suffix; classified as a floating literal by
the presence of a fractional part or exponent suffix, else as an integer
literal (spec 4.1). -/
def scanNumber (c : Char) (cs : List Char) :
    Option (TokKind × List Char × List Char) :=
  let fr := scanFrac (cs.dropWhile isDigitChar)
  let ex := scanExpPart fr.2
  if fr.1 = [] ∧ ex.1 = [] then
    some (.intLit, c :: cs.takeWhile isDigitChar, cs.dropWhile isDigitChar)
  else
    some (.floatLit,
      (c :: cs.takeWhile isDigitChar) ++ fr.1 ++ ex.1 ++ (scanSuf ex.2).1,
      (scanSuf ex.2).2)

/-- Scan a string literal body after its opening quote; an unterminated
literal scans to `none` (a LexError, spec 4.1). -/
def scanString (cs : List Char) : Option (TokKind × List Char × List Char) :=
  match cs.dropWhile (fun ch => !(ch == dquote)) with
  | _ :: r =>
      some (.strLit, dquote :: (cs.takeWhile (fun ch => !(ch == dquote))) ++ [dquote], r)
  | [] => none

/-- Scan a character literal body after its opening quote: one plain or one
backslash-escaped character, then the closing quote. -/
def scanChar (cs : List Char) : Option (TokKind × List Char × List Char) :=
  match cs with
  | a :: rest1 =>
      if a == bslash then
        match rest1 with
        | x :: q :: r =>
            if q == squote then some (.charLit, [squote, bslash, x, squote], r)
            else none
        | _ => none
      else if a == squote then none
      else
        match rest1 with
        | q :: r =>
            if q == squote then some (.charLit, [squote, a, squote], r)
            else none
        | _ => none
  | [] => none

/-- Scan an operator or punctuation token, compound operators first
(longest match, spec 4.1). -/
def scanOp (c : Char) (cs : List Char) : Option (TokKind × List Char × List Char) :=
  match cs with
  | c2 :: r =>
      if isTwoOp c c2 then some (.opTok, [c, c2], r)
      else if isOpChar c then some (.opTok, [c], c2 :: r)
      else if isPunctChar c then some (.punctTok, [c], c2 :: r)
      else none
  | [] =>
      if isOpChar c then some (.opTok, [c], [])
      else if isPunctChar c then some (.punctTok, [c], [])
      else none

/-- Modelled from the spec: scan one token from the head of the input,
returning its kind, its lexeme, and the unconsumed rest; `none` on
end-of-input or an unrecognized head character. -/
def scanToken : List Char → Option (TokKind × List Char × List Char)
  | [] => none
  | c :: cs =>
      if isIdentStart c then
        some (wordKind (c :: cs.takeWhile isIdentChar),
          c :: cs.takeWhile isIdentChar, cs.dropWhile isIdentChar)
      else if isDigitChar c then scanNumber c cs
      else if c == dquote then scanString cs
      else if c == squote then scanChar cs
      else scanOp c cs

/-- Skip the body of a block comment: consume up to and past the closing
star-slash pair; an unterminated body skips to end of input. -/
def skipBlock : List Char → List Char
  | [] => []
  | c :: cs =>
      match cs with
      | c2 :: cs2 => if c == '*' && c2 == '/' then cs2 else skipBlock cs
      | [] => []

/-- Fueled whitespace-and-comment skipper (line and block comments); with
fuel at least the input length (as `skipWs` supplies) the fuel never runs
out. -/
def skipWsF : Nat → List Char → List Char
  | 0, l => l
  | _ + 1, [] => []
  | fuel + 1, c :: cs =>
      if isWsChar c then skipWsF fuel cs
      else
        match cs with
        | c2 :: cs2 =>
            if c == '/' && c2 == '/' then
              skipWsF fuel (cs2.dropWhile (fun ch => !(ch == '\n')))
            else if c == '/' && c2 == '*' then
              skipWsF fuel (skipBlock cs2)
            else c :: c2 :: cs2
        | [] => [c]

/-- Modelled from the spec: skip whitespace and comments without emitting
tokens for them (spec 4.1). -/
def skipWs (l : List Char) : List Char :=
  skipWsF l.length l

/-- Fueled tokenizer driver: skip, scan one token, record its position as a
character offset into the original source, recurse on the rest. -/
def tokenizeAux : Nat → List Char → Nat → Except TransError (List Token)
  | 0, _, pos => .error (.lexError pos)
  | fuel + 1, cs, pos =>
      match scanToken (skipWs cs) with
      | some (k, lex, rest) =>
          match tokenizeAux fuel rest (pos + (cs.length - (skipWs cs).length) + lex.length) with
          | .ok ts => .ok (⟨k, lex, pos + (cs.length - (skipWs cs).length)⟩ :: ts)
          | .error e => .error e
      | none =>
          if skipWs cs = [] then .ok []
          else .error (.lexError (pos + (cs.length - (skipWs cs).length)))

/-- Modelled from the spec: `tokenize(text) -> sequence of Token`
(spec 4.1); the fuel bound `length + 1` is always sufficient because every
emitted token consumes at least one character. -/
def tokenize (src : List Char) : Except TransError (List Token) :=
  tokenizeAux (src.length + 1) src 0

/-- The exact source substring recovered from a token's recorded position
(testable property 2). -/
def lexAt (src : List Char) (t : Token) : List Char :=
  (src.drop t.pos).take t.lexeme.length

/-- Source transcription (shape): a translation unit in which `main` calls
`factorial` before `factorial`'s definition appears in source order and no
prototype precedes the call — the forward-reference situation of
`src/translator/samples/all_features.cpp` with its forward declaration
removed, which the spec's two-pass rule must still resolve. -/
def fwdProg : List TopDecl :=
  [.definition ⟨"main", [], .intT⟩ [("factorial", 1)],
   .definition ⟨"factorial", [.intT], .intT⟩ [("factorial", 1)]]

/-! ## Generic list lemmas used by the lexer proofs -/

theorem mem_takeWhile_pred {α : Type} (p : α → Bool) :
    ∀ (l : List α) (x : α), x ∈ l.takeWhile p → p x = true := by
  intro l
  induction l with
  | nil => intro x h; simp [List.takeWhile] at h
  | cons a l ih =>
      intro x h
      by_cases ha : p a = true
      · rw [List.takeWhile_cons, if_pos ha] at h
        rcases List.mem_cons.mp h with rfl | h2
        · exact ha
        · exact ih x h2
      · rw [List.takeWhile_cons, if_neg ha] at h
        simp at h

theorem takeWhile_all {α : Type} (p : α → Bool) :
    ∀ (l : List α), (∀ x ∈ l, p x = true) → l.takeWhile p = l := by
  intro l
  induction l with
  | nil => intro _; rfl
  | cons a l ih =>
      intro h
      rw [List.takeWhile_cons, if_pos (h a (List.mem_cons_self a l))]
      rw [ih (fun x hx => h x (List.mem_cons_of_mem a hx))]

theorem dropWhile_all {α : Type} (p : α → Bool) :
    ∀ (l : List α), (∀ x ∈ l, p x = true) → l.dropWhile p = [] := by
  intro l
  induction l with
  | nil => intro _; rfl
  | cons a l ih =>
      intro h
      rw [List.dropWhile_cons, if_pos (h a (List.mem_cons_self a l))]
      exact ih (fun x hx => h x (List.mem_cons_of_mem a hx))

theorem takeWhile_append_all {α : Type} (p : α → Bool) :
    ∀ (l1 l2 : List α), (∀ x ∈ l1, p x = true) →
      (l1 ++ l2).takeWhile p = l1 ++ l2.takeWhile p := by
  intro l1 l2
  induction l1 with
  | nil => intro _; rfl
  | cons a l1 ih =>
      intro h
      rw [List.cons_append, List.takeWhile_cons, if_pos (h a (List.mem_cons_self a l1))]
      rw [ih (fun x hx => h x (List.mem_cons_of_mem a hx)), List.cons_append]

theorem dropWhile_append_all {α : Type} (p : α → Bool) :
    ∀ (l1 l2 : List α), (∀ x ∈ l1, p x = true) →
      (l1 ++ l2).dropWhile p = l2.dropWhile p := by
  intro l1 l2
  induction l1 with
  | nil => intro _; rfl
  | cons a l1 ih =>
      intro h
      rw [List.cons_append, List.dropWhile_cons, if_pos (h a (List.mem_cons_self a l1))]
      exact ih (fun x hx => h x (List.mem_cons_of_mem a hx))

theorem dropWhile_head_false {α : Type} (p : α → Bool) :
    ∀ (l : List α) (x : α) (r : List α), l.dropWhile p = x :: r → p x = false := by
  intro l
  induction l with
  | nil => intro x r h; simp [List.dropWhile] at h
  | cons a l ih =>
      intro x r h
      by_cases ha : p a = true
      · rw [List.dropWhile_cons, if_pos ha] at h
        exact ih x r h
      · rw [List.dropWhile_cons, if_neg ha] at h
        cases h
        exact Bool.eq_false_iff.mpr ha

theorem dropWhile_eq_drop {α : Type} (p : α → Bool) :
    ∀ (l : List α), ∃ n, l.dropWhile p = l.drop n ∧ n ≤ l.length := by
  intro l
  induction l with
  | nil => exact ⟨0, rfl, Nat.le_refl 0⟩
  | cons a l ih =>
      by_cases ha : p a = true
      · obtain ⟨n, hn, hle⟩ := ih
        refine ⟨n + 1, ?_, by simpa using Nat.succ_le_succ hle⟩
        rw [List.dropWhile_cons, if_pos ha, List.drop_succ_cons, hn]
      · exact ⟨0, by rw [List.dropWhile_cons, if_neg ha]; rfl, Nat.zero_le _⟩

/-! ## skipWs lemmas -/

theorem skipBlock_drop :
    ∀ (l : List Char), ∃ n, skipBlock l = l.drop n ∧ n ≤ l.length := by
  intro l
  induction l with
  | nil => exact ⟨0, rfl, Nat.zero_le _⟩
  | cons c cs ih =>
      cases cs with
      | nil => exact ⟨1, rfl, by simp⟩
      | cons c2 cs2 =>
          by_cases hcc : (c == '*' && c2 == '/') = true
          · exact ⟨2, by simp [skipBlock, hcc], by simp⟩
          · obtain ⟨n, hn, hle⟩ := ih
            refine ⟨n + 1, ?_, ?_⟩
            · rw [show skipBlock (c :: c2 :: cs2) = skipBlock (c2 :: cs2) by
                simp [skipBlock, hcc]]
              rw [List.drop_succ_cons, hn]
            · simp only [List.length_cons] at hle ⊢
              omega

theorem skipWsF_drop :
    ∀ (fuel : Nat) (l : List Char), ∃ n, skipWsF fuel l = l.drop n ∧ n ≤ l.length := by
  intro fuel
  induction fuel with
  | zero => intro l; exact ⟨0, rfl, Nat.zero_le _⟩
  | succ fuel ih =>
      intro l
      cases l with
      | nil => exact ⟨0, rfl, Nat.zero_le _⟩
      | cons c cs =>
          by_cases hw : isWsChar c = true
          · obtain ⟨n, hn, hle⟩ := ih cs
            refine ⟨n + 1, ?_, by simpa using Nat.succ_le_succ hle⟩
            rw [show skipWsF (fuel + 1) (c :: cs) = skipWsF fuel cs by
              simp [skipWsF, hw]]
            rw [List.drop_succ_cons, hn]
          · cases cs with
            | nil =>
                refine ⟨0, ?_, Nat.zero_le _⟩
                simp [skipWsF, hw]
            | cons c2 cs2 =>
                by_cases hcc : (c == '/' && c2 == '/') = true
                · obtain ⟨m, hm, hmle⟩ :=
                    dropWhile_eq_drop (fun ch => !(ch == '\n')) cs2
                  obtain ⟨k, hk, hkle⟩ :=
                    ih (cs2.dropWhile (fun ch => !(ch == '\n')))
                  refine ⟨k + m + 2, ?_, ?_⟩
                  · rw [show skipWsF (fuel + 1) (c :: c2 :: cs2) =
                        skipWsF fuel (cs2.dropWhile (fun ch => !(ch == '\n'))) by
                      simp [skipWsF, hw, hcc]]
                    rw [hk, hm, List.drop_drop]
                    rw [show (c :: c2 :: cs2).drop (k + m + 2) = cs2.drop (k + m) by
                      simp [List.drop_succ_cons]]
                    rw [Nat.add_comm m k]
                  · rw [hm, List.length_drop] at hkle
                    simp only [List.length_cons]
                    omega
                · by_cases hbc : (c == '/' && c2 == '*') = true
                  · obtain ⟨m, hm, hmle⟩ := skipBlock_drop cs2
                    obtain ⟨k, hk, hkle⟩ := ih (skipBlock cs2)
                    refine ⟨k + m + 2, ?_, ?_⟩
                    · rw [show skipWsF (fuel + 1) (c :: c2 :: cs2) =
                          skipWsF fuel (skipBlock cs2) by
                        simp [skipWsF, hw, hcc, hbc]]
                      rw [hk, hm, List.drop_drop]
                      rw [show (c :: c2 :: cs2).drop (k + m + 2) = cs2.drop (k + m) by
                        simp [List.drop_succ_cons]]
                      rw [Nat.add_comm m k]
                    · rw [hm, List.length_drop] at hkle
                      simp only [List.length_cons]
                      omega
                  · refine ⟨0, ?_, Nat.zero_le _⟩
                    simp [skipWsF, hw, hcc, hbc]

theorem skipWs_drop (l : List Char) :
    ∃ n, skipWs l = l.drop n ∧ n ≤ l.length :=
  skipWsF_drop l.length l

theorem drop_length_sub {l res : List Char} (n : Nat)
    (h : res = l.drop n) (hn : n ≤ l.length) :
    l.drop (l.length - res.length) = res := by
  subst h
  rw [List.length_drop]
  congr 1
  omega

theorem skipWs_self_drop (l : List Char) :
    l.drop (l.length - (skipWs l).length) = skipWs l := by
  obtain ⟨n, hn, hle⟩ := skipWs_drop l
  exact drop_length_sub n hn hle

theorem skipWs_cons_eq {c : Char} {l : List Char}
    (hw : isWsChar c = false) (hc : c ≠ '/') : skipWs (c :: l) = c :: l := by
  cases l with
  | nil => simp [skipWs, skipWsF, hw]
  | cons c2 cs2 =>
      have hcs : (c == '/') = false := by
        simp [hc]
      simp [skipWs, skipWsF, hw, hcs]

/-! ## Character-class case lemmas -/

theorem ws_char_cases {c : Char} (h : isWsChar c = true) :
    c = ' ' ∨ c = '\t' ∨ c = '\n' ∨ c = '\r' := by
  simp only [isWsChar, Bool.or_eq_true, beq_iff_eq, or_assoc] at h
  exact h

theorem identStart_not_special {c : Char} (h : isIdentStart c = true) :
    isWsChar c = false ∧ c ≠ '/' := by
  constructor
  · cases hws : isWsChar c
    · rfl
    · rcases ws_char_cases hws with rfl | rfl | rfl | rfl <;> exact absurd h (by decide)
  · rintro rfl
    exact absurd h (by decide)

theorem digit_not_special {c : Char} (h : isDigitChar c = true) :
    isWsChar c = false ∧ c ≠ '/' := by
  constructor
  · cases hws : isWsChar c
    · rfl
    · rcases ws_char_cases hws with rfl | rfl | rfl | rfl <;> exact absurd h (by decide)
  · rintro rfl
    exact absurd h (by decide)

theorem opChar_cases {c : Char} (h : isOpChar c = true) :
    c = '+' ∨ c = '-' ∨ c = '*' ∨ c = '/' ∨ c = '%' ∨
    c = '<' ∨ c = '>' ∨ c = '=' ∨ c = '!' ∨ c = '&' ∨
    c = '|' ∨ c = '^' ∨ c = '~' ∨ c = '?' := by
  simp only [isOpChar, Bool.or_eq_true, beq_iff_eq, or_assoc] at h
  exact h

theorem punctChar_cases {c : Char} (h : isPunctChar c = true) :
    c = '(' ∨ c = ')' ∨ c = Char.ofNat 123 ∨ c = Char.ofNat 125 ∨
    c = '[' ∨ c = ']' ∨ c = ',' ∨ c = ';' ∨ c = ':' ∨ c = '.' ∨
    c = '#' := by
  simp only [isPunctChar, Bool.or_eq_true, beq_iff_eq, or_assoc] at h
  exact h

theorem twoOp_cases {a b : Char} (h : isTwoOp a b = true) :
    (a = '=' ∧ b = '=') ∨ (a = '!' ∧ b = '=') ∨
    (a = '<' ∧ b = '=') ∨ (a = '>' ∧ b = '=') ∨
    (a = '&' ∧ b = '&') ∨ (a = '|' ∧ b = '|') ∨
    (a = '+' ∧ b = '+') ∨ (a = '-' ∧ b = '-') ∨
    (a = '+' ∧ b = '=') ∨ (a = '-' ∧ b = '=') ∨
    (a = '*' ∧ b = '=') ∨ (a = '/' ∧ b = '=') ∨
    (a = '%' ∧ b = '=') ∨ (a = '<' ∧ b = '<') ∨
    (a = '>' ∧ b = '>') ∨ (a = '-' ∧ b = '>') := by
  simp only [isTwoOp, Bool.or_eq_true, Bool.and_eq_true, beq_iff_eq, or_assoc] at h
  exact h

/-! ## scanNumber part lemmas and round trip -/

theorem dropWhile_of_takeWhile_nil {α : Type} (p : α → Bool) (u : List α)
    (h : u.takeWhile p = []) : u.dropWhile p = u := by
  have h0 := List.takeWhile_append_dropWhile (p := p) (l := u)
  rw [h, List.nil_append] at h0
  exact h0

theorem takeWhile_nil_cons {α : Type} (p : α → Bool) (x : α) (r : List α)
    (hx : p x = false) : (x :: r).takeWhile p = [] := by
  rw [List.takeWhile_cons, if_neg (by simp [hx])]

theorem scanFrac_spec {cs p r : List Char} (h : scanFrac cs = (p, r)) :
    cs = p ++ r ∧
    ((p = [] ∧ r = cs) ∨
      ∃ d2 tw2, p = '.' :: d2 :: tw2 ∧ isDigitChar d2 = true ∧
        ∀ x ∈ tw2, isDigitChar x = true) := by
  cases cs with
  | nil =>
      simp only [scanFrac, Prod.mk.injEq] at h
      obtain ⟨rfl, rfl⟩ := h
      exact ⟨rfl, Or.inl ⟨rfl, rfl⟩⟩
  | cons d1 cs1 =>
      cases cs1 with
      | nil =>
          simp only [scanFrac, Prod.mk.injEq] at h
          obtain ⟨rfl, rfl⟩ := h
          exact ⟨rfl, Or.inl ⟨rfl, rfl⟩⟩
      | cons d2 r2 =>
          by_cases hg : (d1 == '.' && isDigitChar d2) = true
          · simp only [scanFrac, hg, if_true, Prod.mk.injEq] at h
            obtain ⟨rfl, rfl⟩ := h
            obtain ⟨hd1, hd2⟩ : d1 = '.' ∧ isDigitChar d2 = true := by simpa using hg
            subst hd1
            constructor
            · show '.' :: d2 :: r2 =
                '.' :: d2 :: (r2.takeWhile isDigitChar ++ r2.dropWhile isDigitChar)
              rw [List.takeWhile_append_dropWhile]
            · exact Or.inr ⟨d2, _, rfl, hd2, mem_takeWhile_pred _ _⟩
          · simp only [scanFrac, hg, if_false, Prod.mk.injEq] at h
            obtain ⟨rfl, rfl⟩ := h
            exact ⟨rfl, Or.inl ⟨rfl, rfl⟩⟩

theorem scanFrac_parts (d2 : Char) (tw2 u : List Char)
    (hd2 : isDigitChar d2 = true) (htw2 : ∀ x ∈ tw2, isDigitChar x = true)
    (hu : u.takeWhile isDigitChar = []) :
    scanFrac ('.' :: d2 :: (tw2 ++ u)) = ('.' :: d2 :: tw2, u) := by
  simp only [scanFrac]
  rw [if_pos (by simp [hd2])]
  rw [takeWhile_append_all _ _ _ htw2, hu, List.append_nil,
    dropWhile_append_all _ _ _ htw2, dropWhile_of_takeWhile_nil _ _ hu]

theorem scanFrac_none (x : Char) (r : List Char) (hx : (x == '.') = false) :
    scanFrac (x :: r) = ([], x :: r) := by
  cases r with
  | nil => rfl
  | cons y r2 =>
      simp only [scanFrac]
      rw [if_neg (by simp [hx])]

theorem scanExpPart_spec {cs p r : List Char} (h : scanExpPart cs = (p, r)) :
    cs = p ++ r ∧
    ((p = [] ∧ r = cs) ∨
      (∃ s tw3, p = 'e' :: s :: tw3 ∧ isDigitChar s = true ∧
        ∀ x ∈ tw3, isDigitChar x = true) ∨
      (∃ s d tw3, p = 'e' :: s :: d :: tw3 ∧ (s == '+' || s == '-') = true ∧
        isDigitChar d = true ∧ ∀ x ∈ tw3, isDigitChar x = true)) := by
  cases cs with
  | nil =>
      simp only [scanExpPart, Prod.mk.injEq] at h
      obtain ⟨rfl, rfl⟩ := h
      exact ⟨rfl, Or.inl ⟨rfl, rfl⟩⟩
  | cons e1 cs1 =>
      cases cs1 with
      | nil =>
          simp only [scanExpPart, Prod.mk.injEq] at h
          obtain ⟨rfl, rfl⟩ := h
          exact ⟨rfl, Or.inl ⟨rfl, rfl⟩⟩
      | cons sc r2 =>
          by_cases hg1 : (e1 == 'e' && isDigitChar sc) = true
          · simp only [scanExpPart, hg1, if_true, Prod.mk.injEq] at h
            obtain ⟨rfl, rfl⟩ := h
            obtain ⟨he1, hsc⟩ : e1 = 'e' ∧ isDigitChar sc = true := by simpa using hg1
            subst he1
            constructor
            · show 'e' :: sc :: r2 =
                'e' :: sc :: (r2.takeWhile isDigitChar ++ r2.dropWhile isDigitChar)
              rw [List.takeWhile_append_dropWhile]
            · exact Or.inr (Or.inl ⟨sc, _, rfl, hsc, mem_takeWhile_pred _ _⟩)
          · by_cases hg2 : (e1 == 'e' && (sc == '+' || sc == '-')) = true
            · cases r2 with
              | nil =>
                  simp only [scanExpPart, hg1, hg2, if_true, if_false,
                    Prod.mk.injEq] at h
                  obtain ⟨rfl, rfl⟩ := h
                  exact ⟨rfl, Or.inl ⟨rfl, rfl⟩⟩
              | cons d r3 =>
                  by_cases hd : isDigitChar d = true
                  · simp only [scanExpPart, hg1, hg2, hd, if_true, if_false,
                      Prod.mk.injEq] at h
                    obtain ⟨rfl, rfl⟩ := h
                    obtain ⟨he1, hsc⟩ : e1 = 'e' ∧ (sc == '+' || sc == '-') = true := by
                      simpa using hg2
                    subst he1
                    constructor
                    · show 'e' :: sc :: d :: r3 = 'e' :: sc :: d ::
                        (r3.takeWhile isDigitChar ++ r3.dropWhile isDigitChar)
                      rw [List.takeWhile_append_dropWhile]
                    · exact Or.inr (Or.inr ⟨sc, d, _, rfl, hsc, hd,
                        mem_takeWhile_pred _ _⟩)
                  · simp only [scanExpPart, hg1, hg2, hd, if_true, if_false,
                      Prod.mk.injEq] at h
                    obtain ⟨rfl, rfl⟩ := h
                    exact ⟨rfl, Or.inl ⟨rfl, rfl⟩⟩
            · simp only [scanExpPart, hg1, hg2, if_false, Prod.mk.injEq] at h
              obtain ⟨rfl, rfl⟩ := h
              exact ⟨rfl, Or.inl ⟨rfl, rfl⟩⟩

theorem scanExpPart_parts_digit (s : Char) (tw3 u : List Char)
    (hs : isDigitChar s = true) (htw3 : ∀ x ∈ tw3, isDigitChar x = true)
    (hu : u.takeWhile isDigitChar = []) :
    scanExpPart ('e' :: s :: (tw3 ++ u)) = ('e' :: s :: tw3, u) := by
  simp only [scanExpPart]
  rw [if_pos (by simp [hs])]
  rw [takeWhile_append_all _ _ _ htw3, hu, List.append_nil,
    dropWhile_append_all _ _ _ htw3, dropWhile_of_takeWhile_nil _ _ hu]

theorem scanExpPart_parts_sign (s d : Char) (tw3 u : List Char)
    (hs : (s == '+' || s == '-') = true) (hd : isDigitChar d = true)
    (htw3 : ∀ x ∈ tw3, isDigitChar x = true)
    (hu : u.takeWhile isDigitChar = []) :
    scanExpPart ('e' :: s :: d :: (tw3 ++ u)) = ('e' :: s :: d :: tw3, u) := by
  have hsd : isDigitChar s = false := by
    have hcases : s = '+' ∨ s = '-' := by simpa using hs
    rcases hcases with rfl | rfl <;> decide
  simp only [scanExpPart]
  rw [if_neg (by simp [hsd]), if_pos (by simp [hs])]
  simp only [hd, if_true]
  rw [takeWhile_append_all _ _ _ htw3, hu, List.append_nil,
    dropWhile_append_all _ _ _ htw3, dropWhile_of_takeWhile_nil _ _ hu]

theorem scanExpPart_none (x : Char) (r : List Char) (hx : (x == 'e') = false) :
    scanExpPart (x :: r) = ([], x :: r) := by
  cases r with
  | nil => rfl
  | cons sc r2 =>
      simp only [scanExpPart]
      rw [if_neg (by simp [hx]), if_neg (by simp [hx])]

theorem scanSuf_spec {cs p r : List Char} (h : scanSuf cs = (p, r)) :
    cs = p ++ r ∧ ((p = [] ∧ r = cs) ∨ (p = ['f'] ∧ cs = 'f' :: r)) := by
  cases cs with
  | nil =>
      simp only [scanSuf, Prod.mk.injEq] at h
      obtain ⟨rfl, rfl⟩ := h
      exact ⟨rfl, Or.inl ⟨rfl, rfl⟩⟩
  | cons sc r1 =>
      by_cases hf : (sc == 'f') = true
      · have hsc : sc = 'f' := by simpa using hf
        subst hsc
        simp only [scanSuf, if_pos (by simp : (('f' : Char) == 'f') = true),
          Prod.mk.injEq] at h
        obtain ⟨rfl, rfl⟩ := h
        exact ⟨rfl, Or.inr ⟨rfl, rfl⟩⟩
      · simp only [scanSuf, hf, if_false, Prod.mk.injEq] at h
        obtain ⟨rfl, rfl⟩ := h
        exact ⟨rfl, Or.inl ⟨rfl, rfl⟩⟩

theorem scanNumber_all_digits (c : Char) (l : List Char)
    (h : ∀ x ∈ l, isDigitChar x = true) :
    scanNumber c l = some (.intLit, c :: l, []) := by
  have hd : l.dropWhile isDigitChar = [] := dropWhile_all _ _ h
  have ht : l.takeWhile isDigitChar = l := takeWhile_all _ _ h
  simp only [scanNumber, hd, ht]
  rfl

theorem scanNumber_round {c : Char} {cs : List Char} {k : TokKind} {lex rest : List Char}
    (h : scanNumber c cs = some (k, lex, rest)) :
    c :: cs = lex ++ rest ∧
    ∃ lexT, lex = c :: lexT ∧ scanNumber c lexT = some (k, lex, []) := by
  set tw := cs.takeWhile isDigitChar with htwd
  set r0 := cs.dropWhile isDigitChar with hr0d
  have hcs : tw ++ r0 = cs := by
    rw [htwd, hr0d]
    exact List.takeWhile_append_dropWhile (p := isDigitChar) (l := cs)
  have htw : ∀ x ∈ tw, isDigitChar x = true := by
    rw [htwd]
    exact mem_takeWhile_pred _ _
  rcases hfr : scanFrac r0 with ⟨fp, r1⟩
  rcases hex : scanExpPart r1 with ⟨ep, r2⟩
  rcases hsu : scanSuf r2 with ⟨sp, r3⟩
  obtain ⟨hsplit1, hcase1⟩ := scanFrac_spec hfr
  obtain ⟨hsplit2, hcase2⟩ := scanExpPart_spec hex
  obtain ⟨hsplit3, hcase3⟩ := scanSuf_spec hsu
  simp only [scanNumber] at h
  rw [← htwd, ← hr0d] at h
  rw [hfr] at h
  simp only [hex, hsu] at h
  split at h
  · rename_i hcond
    simp only [Option.some.injEq, Prod.mk.injEq] at h
    obtain ⟨rfl, rfl, rfl⟩ := h
    constructor
    · conv_lhs => rw [← hcs]
      rfl
    · exact ⟨tw, rfl, scanNumber_all_digits c tw htw⟩
  · rename_i hcond
    simp only [Option.some.injEq, Prod.mk.injEq] at h
    obtain ⟨rfl, rfl, rfl⟩ := h
    have hsp : sp = [] ∨ sp = ['f'] := by
      rcases hcase3 with ⟨rfl, _⟩ | ⟨rfl, _⟩
      · exact Or.inl rfl
      · exact Or.inr rfl
    have husp : sp.takeWhile isDigitChar = [] := by
      rcases hsp with rfl | rfl
      · rfl
      · decide
    have hsuf : scanSuf sp = (sp, []) := by
      rcases hsp with rfl | rfl
      · rfl
      · decide
    have hu1 : (ep ++ sp).takeWhile isDigitChar = [] := by
      rcases hcase2 with ⟨rfl, _⟩ | ⟨s, tw3, rfl, _, _⟩ | ⟨s, d, tw3, rfl, _, _, _⟩
      · rw [List.nil_append]
        exact husp
      · exact takeWhile_nil_cons _ _ _ (by decide)
      · exact takeWhile_nil_cons _ _ _ (by decide)
    have hexpart : scanExpPart (ep ++ sp) = (ep, sp) := by
      rcases hcase2 with ⟨rfl, _⟩ | ⟨s, tw3, rfl, hs, htw3⟩ |
        ⟨s, d, tw3, rfl, hs, hd, htw3⟩
      · rw [List.nil_append]
        rcases hsp with rfl | rfl
        · rfl
        · exact scanExpPart_none 'f' [] (by decide)
      · rw [show ('e' :: s :: tw3) ++ sp = 'e' :: s :: (tw3 ++ sp) from rfl]
        exact scanExpPart_parts_digit s tw3 sp hs htw3 husp
      · rw [show ('e' :: s :: d :: tw3) ++ sp = 'e' :: s :: d :: (tw3 ++ sp) from rfl]
        exact scanExpPart_parts_sign s d tw3 sp hs hd htw3 husp
    have hu0 : (fp ++ (ep ++ sp)).takeWhile isDigitChar = [] := by
      rcases hcase1 with ⟨rfl, _⟩ | ⟨d2, tw2, rfl, _, _⟩
      · rw [List.nil_append]
        exact hu1
      · exact takeWhile_nil_cons _ _ _ (by decide)
    have hfrpart : scanFrac (fp ++ (ep ++ sp)) = (fp, ep ++ sp) := by
      rcases hcase1 with ⟨rfl, hr1⟩ | ⟨d2, tw2, rfl, hd2, htw2⟩
      · rw [List.nil_append]
        rcases hcase2 with ⟨rfl, _⟩ | ⟨s, tw3, rfl, _, _⟩ | ⟨s, d, tw3, rfl, _, _, _⟩
        · exact absurd ⟨rfl, rfl⟩ hcond
        · exact scanFrac_none 'e' _ (by decide)
        · exact scanFrac_none 'e' _ (by decide)
      · rw [show ('.' :: d2 :: tw2) ++ (ep ++ sp) = '.' :: d2 :: (tw2 ++ (ep ++ sp))
          from rfl]
        exact scanFrac_parts d2 tw2 (ep ++ sp) hd2 htw2 hu1
    have hcse : cs = tw ++ (fp ++ (ep ++ (sp ++ r3))) := by
      rw [← hcs, hsplit1, hsplit2, hsplit3]
    constructor
    · rw [hcse]
      simp [List.append_assoc]
    · refine ⟨tw ++ (fp ++ (ep ++ sp)), by simp [List.append_assoc], ?_⟩
      have ttake : (tw ++ (fp ++ (ep ++ sp))).takeWhile isDigitChar = tw := by
        rw [takeWhile_append_all _ _ _ htw, hu0, List.append_nil]
      have tdrop : (tw ++ (fp ++ (ep ++ sp))).dropWhile isDigitChar =
          fp ++ (ep ++ sp) := by
        rw [dropWhile_append_all _ _ _ htw, dropWhile_of_takeWhile_nil _ _ hu0]
      simp only [scanNumber, ttake, tdrop, hfrpart, hexpart, hsuf, if_neg hcond]

theorem scanString_closed (tw : List Char)
    (htw : ∀ x ∈ tw, (!(x == dquote)) = true) :
    scanString (tw ++ [dquote]) = some (.strLit, dquote :: tw ++ [dquote], []) := by
  have e1 : (tw ++ [dquote]).dropWhile (fun ch => !(ch == dquote)) = [dquote] := by
    rw [dropWhile_append_all _ _ _ htw, List.dropWhile_cons, if_neg (by simp)]
  have e2 : (tw ++ [dquote]).takeWhile (fun ch => !(ch == dquote)) = tw := by
    rw [takeWhile_append_all _ _ _ htw, List.takeWhile_cons, if_neg (by simp),
      List.append_nil]
  unfold scanString
  split
  · rename_i x x0 r heq
    rw [e1] at heq
    injection heq with ha hb
    subst hb
    rw [e2]
  · rename_i x heq
    rw [e1] at heq
    simp at heq

theorem scanString_round {cs : List Char} {k : TokKind} {lex rest : List Char}
    (h : scanString cs = some (k, lex, rest)) :
    dquote :: cs = lex ++ rest ∧ lex ≠ [] ∧ skipWs lex = lex ∧
    scanToken lex = some (k, lex, []) := by
  unfold scanString at h
  set tw := cs.takeWhile (fun ch => !(ch == dquote)) with htwd
  have hcs : tw ++ cs.dropWhile (fun ch => !(ch == dquote)) = cs :=
    List.takeWhile_append_dropWhile (p := fun ch => !(ch == dquote)) (l := cs)
  have htw : ∀ x ∈ tw, (!(x == dquote)) = true := by
    rw [htwd]
    exact mem_takeWhile_pred _ cs
  split at h
  · rename_i x x0 r heq
    have hx0 : (!(x0 == dquote)) = false :=
      dropWhile_head_false (fun ch => !(ch == dquote)) cs x0 r heq
    have hx0e : x0 = dquote := by simpa using hx0
    subst hx0e
    simp only [Option.some.injEq, Prod.mk.injEq] at h
    obtain ⟨rfl, rfl, rfl⟩ := h
    have hcse : cs = tw ++ dquote :: r := by
      rw [← hcs, heq]
    refine ⟨?_, by simp, ?_, ?_⟩
    · rw [hcse]
      simp
    · exact skipWs_cons_eq (by decide) (by decide)
    · rw [List.cons_append]
      simp only [scanToken]
      rw [if_neg (by decide), if_neg (by decide), if_pos (by decide)]
      rw [scanString_closed tw htw]
      rw [List.cons_append]
  · exact Option.noConfusion h

theorem scanChar_round {cs : List Char} {k : TokKind} {lex rest : List Char}
    (h : scanChar cs = some (k, lex, rest)) :
    squote :: cs = lex ++ rest ∧ lex ≠ [] ∧ skipWs lex = lex ∧
    scanToken lex = some (k, lex, []) := by
  cases cs with
  | nil => simp [scanChar] at h
  | cons a rest1 =>
      by_cases hb : (a == bslash) = true
      · have hbe : a = bslash := by simpa using hb
        subst hbe
        cases rest1 with
        | nil => simp [scanChar] at h
        | cons x rest2 =>
            cases rest2 with
            | nil => simp [scanChar] at h
            | cons q r =>
                by_cases hq : q = squote
                · subst hq
                  simp only [scanChar, beq_self_eq_true, if_true, if_pos,
                    Option.some.injEq, Prod.mk.injEq] at h
                  obtain ⟨rfl, rfl, rfl⟩ := h
                  refine ⟨rfl, by simp, ?_, ?_⟩
                  · exact skipWs_cons_eq (by decide) (by decide)
                  · simp only [scanToken]
                    rw [if_neg (by decide), if_neg (by decide), if_neg (by decide),
                      if_pos (by decide)]
                    simp [scanChar]
                · simp [scanChar, hq] at h
      · by_cases hsq : (a == squote) = true
        · simp [scanChar, hb, hsq] at h
        · cases rest1 with
          | nil => simp [scanChar, hb, hsq] at h
          | cons q r =>
              by_cases hq : q = squote
              · subst hq
                simp only [scanChar, hb, hsq, if_neg, if_false, beq_self_eq_true,
                  if_true, Option.some.injEq, Prod.mk.injEq] at h
                obtain ⟨rfl, rfl, rfl⟩ := h
                refine ⟨rfl, by simp, ?_, ?_⟩
                · exact skipWs_cons_eq (by decide) (by decide)
                · simp only [scanToken]
                  rw [if_neg (by decide), if_neg (by decide), if_neg (by decide),
                    if_pos (by decide)]
                  simp [scanChar, hb, hsq]
              · simp [scanChar, hb, hsq, hq] at h

theorem scanOp_round {c : Char} {cs : List Char} {k : TokKind} {lex rest : List Char}
    (h : scanOp c cs = some (k, lex, rest)) :
    c :: cs = lex ++ rest ∧ lex ≠ [] ∧ skipWs lex = lex ∧
    scanToken lex = some (k, lex, []) := by
  cases cs with
  | nil =>
      by_cases hop : isOpChar c = true
      · simp only [scanOp, hop, if_true, Option.some.injEq, Prod.mk.injEq] at h
        obtain ⟨rfl, rfl, rfl⟩ := h
        have key : skipWs [c] = [c] ∧ scanToken [c] = some (.opTok, [c], []) := by
          have hcl := opChar_cases hop
          rcases hcl with g | g | g | g | g | g | g | g | g | g | g | g | g | g <;>
            rw [g] <;> exact ⟨by decide, by decide⟩
        exact ⟨rfl, by simp, key.1, key.2⟩
      · by_cases hpu : isPunctChar c = true
        · simp only [scanOp, hop, hpu, if_true, if_false,
            Option.some.injEq, Prod.mk.injEq] at h
          obtain ⟨rfl, rfl, rfl⟩ := h
          have key : skipWs [c] = [c] ∧ scanToken [c] = some (.punctTok, [c], []) := by
            have hcl := punctChar_cases hpu
            rcases hcl with g | g | g | g | g | g | g | g | g | g | g <;>
              rw [g] <;> exact ⟨by decide, by decide⟩
          exact ⟨rfl, by simp, key.1, key.2⟩
        · simp [scanOp, hop, hpu] at h
  | cons c2 r =>
      by_cases h2op : isTwoOp c c2 = true
      · simp only [scanOp, h2op, if_true, Option.some.injEq, Prod.mk.injEq] at h
        obtain ⟨rfl, rfl, rfl⟩ := h
        have key : skipWs [c, c2] = [c, c2] ∧
            scanToken [c, c2] = some (.opTok, [c, c2], []) := by
          have hcl := twoOp_cases h2op
          rcases hcl with g | g | g | g | g | g | g | g | g | g | g | g | g | g | g | g <;>
            rw [g.1, g.2] <;> exact ⟨by decide, by decide⟩
        exact ⟨rfl, by simp, key.1, key.2⟩
      · by_cases hop : isOpChar c = true
        · simp only [scanOp, h2op, hop, if_true, if_false,
            Option.some.injEq, Prod.mk.injEq] at h
          obtain ⟨rfl, rfl, rfl⟩ := h
          have key : skipWs [c] = [c] ∧ scanToken [c] = some (.opTok, [c], []) := by
            have hcl := opChar_cases hop
            rcases hcl with g | g | g | g | g | g | g | g | g | g | g | g | g | g <;>
              rw [g] <;> exact ⟨by decide, by decide⟩
          exact ⟨rfl, by simp, key.1, key.2⟩
        · by_cases hpu : isPunctChar c = true
          · simp only [scanOp, h2op, hop, hpu, if_true, if_false,
            Option.some.injEq, Prod.mk.injEq] at h
            obtain ⟨rfl, rfl, rfl⟩ := h
            have key : skipWs [c] = [c] ∧
                scanToken [c] = some (.punctTok, [c], []) := by
              have hcl := punctChar_cases hpu
              rcases hcl with g | g | g | g | g | g | g | g | g | g | g <;>
                rw [g] <;> exact ⟨by decide, by decide⟩
            exact ⟨rfl, by simp, key.1, key.2⟩
          · simp [scanOp, h2op, hop, hpu] at h


/-! ## scanToken round trip -/

theorem scanToken_round {cs : List Char} {k : TokKind} {lex rest : List Char}
    (h : scanToken cs = some (k, lex, rest)) :
    cs = lex ++ rest ∧ lex ≠ [] ∧ skipWs lex = lex ∧
    scanToken lex = some (k, lex, []) := by
  cases cs with
  | nil => simp [scanToken] at h
  | cons c cs0 =>
      simp only [scanToken] at h
      by_cases h1 : isIdentStart c = true
      · rw [if_pos h1] at h
        simp only [Option.some.injEq, Prod.mk.injEq] at h
        obtain ⟨rfl, rfl, rfl⟩ := h
        set tw := cs0.takeWhile isIdentChar with htwd
        have htw : ∀ x ∈ tw, isIdentChar x = true := by
          rw [htwd]
          exact mem_takeWhile_pred _ _
        refine ⟨?_, by simp, ?_, ?_⟩
        · conv_lhs => rw [← List.takeWhile_append_dropWhile (p := isIdentChar) (l := cs0)]
          rfl
        · obtain ⟨hw, hs⟩ := identStart_not_special h1
          exact skipWs_cons_eq hw hs
        · simp only [scanToken]
          rw [if_pos h1, takeWhile_all _ _ htw, dropWhile_all _ _ htw]
      · rw [if_neg h1] at h
        by_cases h2 : isDigitChar c = true
        · rw [if_pos h2] at h
          obtain ⟨hsplit, lexT, rfl, hres⟩ := scanNumber_round h
          refine ⟨hsplit, by simp, ?_, ?_⟩
          · obtain ⟨hw, hs⟩ := digit_not_special h2
            exact skipWs_cons_eq hw hs
          · simp only [scanToken]
            rw [if_neg h1, if_pos h2]
            exact hres
        · rw [if_neg h2] at h
          by_cases h3 : (c == dquote) = true
          · rw [if_pos h3] at h
            have h3e : c = dquote := by simpa using h3
            subst h3e
            exact scanString_round h
          · rw [if_neg h3] at h
            by_cases h4 : (c == squote) = true
            · rw [if_pos h4] at h
              have h4e : c = squote := by simpa using h4
              subst h4e
              exact scanChar_round h
            · rw [if_neg h4] at h
              exact scanOp_round h

/-! ## Tokenizer driver lemmas -/

theorem take_len_append {α : Type} (l1 l2 : List α) : (l1 ++ l2).take l1.length = l1 := by
  induction l1 with
  | nil => rfl
  | cons a l1 ih => simp [List.take_succ_cons, ih]

theorem drop_len_append {α : Type} (l1 l2 : List α) : (l1 ++ l2).drop l1.length = l2 := by
  induction l1 with
  | nil => rfl
  | cons a l1 ih => simp [List.drop_succ_cons, ih]

theorem skipWs_nil : skipWs [] = [] := rfl

theorem tokenizeAux_nil (fuel pos : Nat) : tokenizeAux (fuel + 1) [] pos = .ok [] := rfl

theorem tokenizeAux_single (fuel : Nat) {lex : List Char} {k : TokKind}
    (hsk : skipWs lex = lex) (hres : scanToken lex = some (k, lex, [])) :
    tokenizeAux (fuel + 2) lex 0 = .ok [⟨k, lex, 0⟩] := by
  show tokenizeAux (fuel + 1 + 1) lex 0 = .ok [⟨k, lex, 0⟩]
  have h0 : scanToken ([] : List Char) = none := rfl
  simp only [tokenizeAux, hsk, hres, skipWs_nil, h0, Nat.sub_self, Nat.add_zero,
    List.length_nil, if_pos rfl, if_true]

theorem tokenizeAux_sound :
    ∀ (fuel : Nat) (cs : List Char) (pos : Nat) (ts : List Token),
      tokenizeAux fuel cs pos = .ok ts →
      ∀ t ∈ ts, pos ≤ t.pos ∧
        (cs.drop (t.pos - pos)).take t.lexeme.length = t.lexeme ∧
        t.lexeme ≠ [] ∧ skipWs t.lexeme = t.lexeme ∧
        scanToken t.lexeme = some (t.kind, t.lexeme, []) := by
  intro fuel
  induction fuel with
  | zero =>
      intro cs pos ts h
      simp [tokenizeAux] at h
  | succ fuel ih =>
      intro cs pos ts h
      have hws := skipWs_self_drop cs
      simp only [tokenizeAux] at h
      split at h
      · rename_i x k lex rest heq
        obtain ⟨hsplit, hne, hsk, hres⟩ := scanToken_round heq
        split at h
        · rename_i y ts2 heq2
          simp only [Except.ok.injEq] at h
          subst h
          intro t ht
          rcases List.mem_cons.mp ht with rfl | ht2
          · refine ⟨Nat.le_add_right _ _, ?_, hne, hsk, hres⟩
            simp only [Nat.add_sub_cancel_left]
            have e2 : cs.drop (cs.length - (skipWs cs).length) = lex ++ rest := by
              rw [hws, hsplit]
            rw [e2]
            exact take_len_append lex rest
          · obtain ⟨hle, htake, hne2, hsk2, hres2⟩ := ih rest _ ts2 heq2 t ht2
            have e2 : cs.drop (cs.length - (skipWs cs).length) = lex ++ rest := by
              rw [hws, hsplit]
            have e3 : cs.drop ((cs.length - (skipWs cs).length) + lex.length) = rest := by
              rw [← List.drop_drop, e2]
              exact drop_len_append lex rest
            refine ⟨by omega, ?_, hne2, hsk2, hres2⟩
            have e4 : cs.drop (t.pos - pos) =
                rest.drop (t.pos - (pos + (cs.length - (skipWs cs).length) + lex.length)) := by
              rw [show t.pos - pos =
                  ((cs.length - (skipWs cs).length) + lex.length) +
                    (t.pos - (pos + (cs.length - (skipWs cs).length) + lex.length)) from by
                omega]
              rw [← List.drop_drop, e3]
            rw [e4]
            exact htake
        · exact Except.noConfusion h
      · rename_i heq
        split at h
        · simp only [Except.ok.injEq] at h
          subst h
          intro t ht
          simp at ht
        · exact Except.noConfusion h

/-! ## Resolver and two-pass helper lemmas -/

theorem zip_name_getD :
    ∀ (fields : List StructField) (vals : List Int) (i : Nat),
      i < vals.length → vals.length ≤ fields.length →
      ((fields.zip vals).map (fun p => (p.1.name, p.2))).getD i ("", 0) =
        ((fields.getD i ⟨"", .intT⟩).name, vals.getD i 0) := by
  intro fields
  induction fields with
  | nil =>
      intro vals i h1 h2
      have hz : vals.length = 0 := Nat.le_zero.mp (by simpa using h2)
      omega
  | cons f fs ih =>
      intro vals i h1 h2
      cases vals with
      | nil => simp at h1
      | cons v vs =>
          cases i with
          | zero => rfl
          | succ i =>
              have h1b : i < vs.length := by simpa using h1
              have h2b : vs.length ≤ fs.length := by simpa using h2
              simp only [List.zip_cons_cons, List.map_cons, List.getD_cons_succ]
              exact ih vs i h1b h2b

theorem mem_collectSigs :
    ∀ (prog : List TopDecl) (s : FunSig),
      (TopDecl.proto s ∈ prog ∨ ∃ calls, TopDecl.definition s calls ∈ prog) →
      s ∈ collectSigs prog := by
  intro prog
  induction prog with
  | nil =>
      intro s h
      rcases h with h | ⟨calls, h⟩ <;> simp at h
  | cons d rest ih =>
      intro s h
      cases d with
      | proto s0 =>
          simp only [collectSigs]
          rcases h with h | ⟨calls, h⟩
          · rcases List.mem_cons.mp h with heq | hmem
            · injection heq with h2
              subst h2
              exact List.mem_cons_self _ _
            · exact List.mem_cons_of_mem _ (ih s (Or.inl hmem))
          · rcases List.mem_cons.mp h with heq | hmem
            · exact TopDecl.noConfusion heq
            · exact List.mem_cons_of_mem _ (ih s (Or.inr ⟨calls, hmem⟩))
      | definition s0 calls0 =>
          simp only [collectSigs]
          rcases h with h | ⟨calls, h⟩
          · rcases List.mem_cons.mp h with heq | hmem
            · exact TopDecl.noConfusion heq
            · exact List.mem_cons_of_mem _ (ih s (Or.inl hmem))
          · rcases List.mem_cons.mp h with heq | hmem
            · injection heq with h2 h3
              subst h2
              exact List.mem_cons_self _ _
            · exact List.mem_cons_of_mem _ (ih s (Or.inr ⟨calls, hmem⟩))

theorem lookupSig_of_mem :
    ∀ (sigs : List FunSig) (s : FunSig), s ∈ sigs →
      ∃ s2, lookupSig sigs s.name = some s2 := by
  intro sigs
  induction sigs with
  | nil => intro s h; simp at h
  | cons s0 rest ih =>
      intro s h
      by_cases he : s0.name = s.name
      · exact ⟨s0, by unfold lookupSig; rw [List.find?_cons_of_pos _ (by simp [he])]⟩
      · rcases List.mem_cons.mp h with rfl | hmem
        · exact absurd rfl he
        · obtain ⟨s2, hs2⟩ := ih s hmem
          refine ⟨s2, ?_⟩
          unfold lookupSig at hs2 ⊢
          rw [List.find?_cons_of_neg _ (by simp [he])]
          exact hs2

theorem resolveCalls_ok (sigs : List FunSig) :
    ∀ (calls : List (String × Nat)),
      (∀ c ∈ calls, ∃ s, lookupSig sigs c.1 = some s ∧ s.paramTypes.length = c.2) →
      resolveCalls sigs calls = .ok () := by
  intro calls
  induction calls with
  | nil => intro _; rfl
  | cons c cs ih =>
      intro h
      obtain ⟨s, hs, hlen⟩ := h c (List.mem_cons_self _ _)
      have hrc : resolveCall sigs c = .ok s := by
        simp [resolveCall, hs, hlen]
      simp only [resolveCalls, hrc]
      exact ih (fun c2 hc2 => h c2 (List.mem_cons_of_mem _ hc2))

theorem resolveBodies_ok (sigs : List FunSig) :
    ∀ (prog : List TopDecl),
      (∀ c ∈ callSites prog,
        ∃ s, lookupSig sigs c.1 = some s ∧ s.paramTypes.length = c.2) →
      resolveBodies sigs prog = .ok () := by
  intro prog
  induction prog with
  | nil => intro _; rfl
  | cons d rest ih =>
      intro h
      cases d with
      | proto s0 =>
          simp only [resolveBodies]
          exact ih (fun c hc => h c (by simpa [callSites] using hc))
      | definition s0 calls0 =>
          have hc0 : resolveCalls sigs calls0 = .ok () :=
            resolveCalls_ok sigs calls0
              (fun c hc => h c (by simp [callSites]; exact Or.inl hc))
          simp only [resolveBodies, hc0]
          exact ih (fun c hc => h c (by simp [callSites]; exact Or.inr hc))

/-! ## Claim theorems -/

/-- C2: in the program the generator must emit, a prefix increment inside a
larger expression yields the updated value to the enclosing expression and a
postfix increment yields the prior value: from `j = 3`, `k = ++j + 1` leaves
`k = 5` and `j = 4`, while `k = j++ + 1` leaves `k = 4` and `j = 4`. -/
theorem increment_expression_semantics :
    lookupEnv (execAssign [("j", 3)] "k" (.add (.preInc "j") (.lit 1))) "k" = 5 ∧
    lookupEnv (execAssign [("j", 3)] "k" (.add (.preInc "j") (.lit 1))) "j" = 4 ∧
    lookupEnv (execAssign [("j", 3)] "k" (.add (.postInc "j") (.lit 1))) "k" = 4 ∧
    lookupEnv (execAssign [("j", 3)] "k" (.add (.postInc "j") (.lit 1))) "j" = 4 := by
  refine ⟨by decide, by decide, by decide, by decide⟩

/-- C3: the resolver raises TypeError for every use of an undeclared
identifier and for every redeclaration of a name already bound in the same
scope, and call emission raises UnsupportedConstructError for every call
whose callee is mapped in the Library Mapping Table but whose argument shape
does not match the mapped pattern. -/
theorem resolver_error_contract :
    (∀ (stack : ScopeStack) (x : String), lookupVar stack x = none →
      ∃ msg, resolveIdent stack x = .error (.typeError msg)) ∧
    (∀ (s : Scope) (rest : ScopeStack) (x : String) (t t0 : CType),
      lookupScope s x = some t0 →
      ∃ msg, declareVar (s :: rest) x t = .error (.typeError msg)) ∧
    (∀ (nm : String) (argc : Nat) (e : LibEntry),
      lookupLib nm = some e → shapeMatches e argc = false →
      ∃ msg, emitCall nm argc = .error (.unsupportedConstruct msg)) := by
  refine ⟨?_, ?_, ?_⟩
  · intro stack x h
    exact ⟨"undeclared identifier " ++ x, by simp [resolveIdent, h]⟩
  · intro s rest x t t0 h
    exact ⟨"redeclaration of " ++ x, by simp [declareVar, h]⟩
  · intro nm argc e he hs
    exact ⟨"call shape mismatch for " ++ nm, by simp [emitCall, he, hs]⟩

/-- C3 witness: concrete instances — an undeclared identifier `q`, a
redeclaration of `x` in its own scope, and `strlen` called with two
arguments. -/
theorem resolver_error_contract_witness :
    (lookupVar [[("y", CType.intT)]] "q" = none ∧
      ∃ msg, resolveIdent [[("y", CType.intT)]] "q" = .error (.typeError msg)) ∧
    (lookupScope [("x", CType.intT)] "x" = some CType.intT ∧
      ∃ msg, declareVar [[("x", CType.intT)]] "x" CType.floatT =
        .error (.typeError msg)) ∧
    (lookupLib "strlen" = some ⟨"strlen", 1, false⟩ ∧
      shapeMatches ⟨"strlen", 1, false⟩ 2 = false ∧
      ∃ msg, emitCall "strlen" 2 = .error (.unsupportedConstruct msg)) := by
  refine ⟨⟨by decide, ?_⟩, ⟨by decide, ?_⟩, ⟨by decide, by decide, ?_⟩⟩
  · exact resolver_error_contract.1 _ _ (by decide)
  · exact resolver_error_contract.2.1 [("x", CType.intT)] [] "x" CType.floatT
      CType.intT (by decide)
  · exact resolver_error_contract.2.2 "strlen" 2 ⟨"strlen", 1, false⟩
      (by decide) (by decide)

/-- C4: resolving a struct-typed declaration with an ordered brace
initializer assigns the values to the fields in field-declaration order, and
raises TypeError whenever the initializer supplies more values than the
struct declares fields. -/
theorem struct_init_field_order (fields : List StructField) (vals : List Int) :
    (vals.length ≤ fields.length →
      ∃ binds, resolveStructInit fields vals = .ok binds ∧
        binds.length = vals.length ∧
        ∀ i, i < vals.length →
          binds.getD i ("", 0) = ((fields.getD i ⟨"", .intT⟩).name, vals.getD i 0)) ∧
    (fields.length < vals.length →
      ∃ msg, resolveStructInit fields vals = .error (.typeError msg)) := by
  constructor
  · intro h
    refine ⟨(fields.zip vals).map (fun p => (p.1.name, p.2)), ?_, ?_, ?_⟩
    · unfold resolveStructInit
      rw [if_neg (by omega)]
    · rw [List.length_map, List.length_zip]
      omega
    · intro i hi
      exact zip_name_getD fields vals i hi h
  · intro h
    exact ⟨"excess initializer values", by
      unfold resolveStructInit
      rw [if_pos h]⟩

/-- C4 witness: the `struct Point q = {10, 20}` fixture resolves in
declaration order, and `{10, 20, 30}` against the two-field Point is a
TypeError. -/
theorem struct_init_field_order_witness :
    ([10, 20].length ≤ pointFields.length ∧
      ∃ binds, resolveStructInit pointFields [10, 20] = .ok binds ∧
        binds.length = 2) ∧
    (pointFields.length < [10, 20, 30].length ∧
      ∃ msg, resolveStructInit pointFields [10, 20, 30] =
        .error (.typeError msg)) := by
  constructor
  · refine ⟨by decide, ?_⟩
    obtain ⟨binds, hb, hlen, _⟩ :=
      (struct_init_field_order pointFields [10, 20]).1 (by decide)
    exact ⟨binds, hb, by rw [hlen]; decide⟩
  · exact ⟨by decide, (struct_init_field_order pointFields [10, 20, 30]).2 (by decide)⟩

/-- C5: for the fixture switch over case labels 1, 2, 3 (each body printing
one line then breaking) with default printing Other, selector 3 executes
only the case-3 branch and does not fall through into the default. -/
theorem switch_case3_selects_only_wed :
    execSwitch 3 allFeaturesArms ["Other\n"] = ["Wed\n"] ∧
    "Other\n" ∉ execSwitch 3 allFeaturesArms ["Other\n"] := by
  refine ⟨by decide, by decide⟩

/-- C6: a comma-separated multi-variable declaration of `a, b, c` sharing
one base type is represented as three independent VariableDeclaration
entries, each carrying the same resolved base type, with three distinct
names (independent storage). -/
theorem multivar_decl_three_entries (base : CType) (i1 i2 i3 : Option Int) :
    splitMultiDecl base [("a", i1), ("b", i2), ("c", i3)] =
      [⟨"a", base, i1⟩, ⟨"b", base, i2⟩, ⟨"c", base, i3⟩] ∧
    (splitMultiDecl base [("a", i1), ("b", i2), ("c", i3)]).length = 3 ∧
    (∀ d ∈ splitMultiDecl base [("a", i1), ("b", i2), ("c", i3)],
      d.declaredType = base) ∧
    ((splitMultiDecl base [("a", i1), ("b", i2), ("c", i3)]).map
      VariableDeclaration.name).Nodup := by
  refine ⟨rfl, rfl, ?_, ?_⟩
  · intro d hd
    simp only [splitMultiDecl, List.map_cons, List.map_nil, List.mem_cons,
      List.not_mem_nil, or_false] at hd
    rcases hd with rfl | rfl | rfl <;> rfl
  · show (["a", "b", "c"] : List String).Nodup
    decide

/-- C6 witness: the `int a, b, c;` fixture declaration instantiated at base
type int, with the membership hypothesis discharged on the first entry. -/
theorem multivar_decl_three_entries_witness :
    splitMultiDecl CType.intT [("a", none), ("b", none), ("c", none)] =
      [⟨"a", CType.intT, none⟩, ⟨"b", CType.intT, none⟩, ⟨"c", CType.intT, none⟩] ∧
    (⟨"a", CType.intT, none⟩ : VariableDeclaration) ∈
      splitMultiDecl CType.intT [("a", none), ("b", none), ("c", none)] ∧
    (⟨"a", CType.intT, none⟩ : VariableDeclaration).declaredType = CType.intT := by
  refine ⟨(multivar_decl_three_entries CType.intT none none none).1, by decide, ?_⟩
  exact (multivar_decl_three_entries CType.intT none none none).2.2.1 _ (by decide)

/-- C7: with two-pass resolution, a translation unit in which a function is
called before its definition appears in source order still resolves: any
prototype or definition anywhere in the unit contributes its signature to
pass one, a prior prototype supplies the signature directly, and when every
call site matches a collected signature the whole unit resolves before code
generation begins. -/
theorem two_pass_forward_resolution :
    (∀ (prog : List TopDecl) (s : FunSig),
      (TopDecl.proto s ∈ prog ∨ ∃ calls, TopDecl.definition s calls ∈ prog) →
      ∃ s2, lookupSig (collectSigs prog) s.name = some s2) ∧
    (∀ (s : FunSig) (rest : List TopDecl),
      lookupSig (collectSigs (TopDecl.proto s :: rest)) s.name = some s) ∧
    (∀ (prog : List TopDecl),
      (∀ c ∈ callSites prog,
        ∃ s, lookupSig (collectSigs prog) c.1 = some s ∧
          s.paramTypes.length = c.2) →
      resolveUnit prog = .ok ()) := by
  refine ⟨?_, ?_, ?_⟩
  · intro prog s h
    exact lookupSig_of_mem _ _ (mem_collectSigs prog s h)
  · intro s rest
    simp only [collectSigs]
    unfold lookupSig
    rw [List.find?_cons_of_pos _ (by simp)]
  · intro prog h
    unfold resolveUnit
    exact resolveBodies_ok _ _ h

/-- C7 witness: `main` calls `factorial` before `factorial`'s definition in
source order and without a prototype; pass one still finds the signature and
the unit resolves. -/
theorem two_pass_forward_resolution_witness :
    (∃ s2, lookupSig (collectSigs fwdProg) "factorial" = some s2) ∧
    resolveUnit fwdProg = .ok () := by
  constructor
  · exact two_pass_forward_resolution.1 fwdProg
      ⟨"factorial", [CType.intT], CType.intT⟩
      (Or.inr ⟨[("factorial", 1)], by decide⟩)
  · apply two_pass_forward_resolution.2.2
    intro c hc
    have hce : c = ("factorial", 1) := by
      simpa [fwdProg, callSites] using hc
    subst hce
    exact ⟨⟨"factorial", [CType.intT], CType.intT⟩, by decide, by decide⟩

/-- C8: for every Token produced by tokenize, re-tokenizing the exact source
substring recovered from that Token's recorded position reproduces a token
with the same kind and the same lexeme (round-trip idempotence between
source positions and tokens). -/
theorem tokenize_roundtrip (src : List Char) (ts : List Token) (t : Token)
    (hok : tokenize src = .ok ts) (ht : t ∈ ts) :
    lexAt src t = t.lexeme ∧
    tokenize (lexAt src t) = .ok [⟨t.kind, t.lexeme, 0⟩] := by
  obtain ⟨hle, htake, hne, hsk, hres⟩ := tokenizeAux_sound _ _ _ _ hok t ht
  have hlex : lexAt src t = t.lexeme := by
    unfold lexAt
    simpa using htake
  refine ⟨hlex, ?_⟩
  rw [hlex]
  obtain ⟨m, hm⟩ : ∃ m, t.lexeme.length + 1 = m + 2 := by
    cases hl : t.lexeme with
    | nil => exact absurd hl hne
    | cons a l => exact ⟨l.length, by simp⟩
  unfold tokenize
  rw [hm]
  exact tokenizeAux_single m hsk hres

/-- C8 witness: tokenizing `x1 <= 42` and re-tokenizing the substring at the
`<=` token's recorded position. -/
theorem tokenize_roundtrip_witness :
    tokenize ['x', '1', ' ', '<', '=', ' ', '4', '2'] =
      .ok [⟨.identTok, ['x', '1'], 0⟩, ⟨.opTok, ['<', '='], 3⟩,
        ⟨.intLit, ['4', '2'], 6⟩] ∧
    lexAt ['x', '1', ' ', '<', '=', ' ', '4', '2'] ⟨.opTok, ['<', '='], 3⟩ =
      ['<', '='] ∧
    tokenize (lexAt ['x', '1', ' ', '<', '=', ' ', '4', '2']
        ⟨.opTok, ['<', '='], 3⟩) =
      .ok [⟨.opTok, ['<', '='], 0⟩] := by
  refine ⟨by decide, ?_, ?_⟩
  · exact (tokenize_roundtrip ['x', '1', ' ', '<', '=', ' ', '4', '2']
      [⟨.identTok, ['x', '1'], 0⟩, ⟨.opTok, ['<', '='], 3⟩, ⟨.intLit, ['4', '2'], 6⟩]
      ⟨.opTok, ['<', '='], 3⟩ (by decide) (by decide)).1
  · exact (tokenize_roundtrip ['x', '1', ' ', '<', '=', ' ', '4', '2']
      [⟨.identTok, ['x', '1'], 0⟩, ⟨.opTok, ['<', '='], 3⟩, ⟨.intLit, ['4', '2'], 6⟩]
      ⟨.opTok, ['<', '='], 3⟩ (by decide) (by decide)).2

/-- Modulus bounds: a wrapped 32-bit value always lies in the int range. -/
theorem wrap32_range (x : Int) :
    -(2 ^ 31) ≤ wrap32 x ∧ wrap32 x < 2 ^ 31 := by
  unfold wrap32
  have h1 : (0 : Int) ≤ (x + 2 ^ 31) % 2 ^ 32 := Int.emod_nonneg _ (by norm_num)
  have h2 : (x + 2 ^ 31) % 2 ^ 32 < 2 ^ 32 := Int.emod_lt_of_pos _ (by norm_num)
  omega

/-- Wrapping is the identity on values already inside the int range. -/
theorem wrap32_eq_self (x : Int) (h1 : -(2 ^ 31) ≤ x) (h2 : x < 2 ^ 31) :
    wrap32 x = x := by
  unfold wrap32
  have h3 : (x + 2 ^ 31) % 2 ^ 32 = x + 2 ^ 31 :=
    Int.emod_eq_of_lt (by omega) (by omega)
  omega

/-- C9 (amended): the fixture factorial terminates for every integer
argument: when n <= 1 it returns 1 without recursing, and when n > 1 it
recurses only on n - 1, the 32-bit product wrapping per C int semantics;
for every 0 <= n <= 12 — the whole range in which that product stays inside
the int range — it returns the mathematical factorial of n. -/
theorem factorial_terminates_correct (n : Int) :
    (n ≤ 1 → factorial n = 1) ∧
    (1 < n → factorial n = wrap32 (n * factorial (n - 1))) ∧
    (0 ≤ n → n ≤ 12 → factorial n = ((Int.toNat n).factorial : Int)) := by
  refine ⟨?_, ?_, ?_⟩
  · intro h
    rw [factorial, if_pos h]
  · intro h
    rw [factorial, if_neg (by omega)]
  · have main : ∀ k : Int, 0 ≤ k →
        k ≤ 12 → factorial k = ((Int.toNat k).factorial : Int) := by
      refine Int.le_induction ?_ ?_
      · intro _
        rw [factorial, if_pos (by norm_num)]
        decide
      · intro k hk ihk h12
        by_cases hk0 : k = 0
        · subst hk0
          rw [factorial, if_pos (by norm_num)]
          decide
        · rw [factorial, if_neg (by omega)]
          rw [show k + 1 - 1 = k from by ring, ihk (by omega)]
          have hcast : (k + 1) * ((Int.toNat k).factorial : Int) =
              ((Int.toNat (k + 1)).factorial : Int) := by
            rw [show Int.toNat (k + 1) = Int.toNat k + 1 from by omega,
              Nat.factorial_succ]
            push_cast
            rw [Int.toNat_of_nonneg hk]
          rw [hcast]
          have hub : (Int.toNat (k + 1)).factorial ≤ Nat.factorial 12 :=
            Nat.monotone_factorial (by omega)
          have hubi : ((Int.toNat (k + 1)).factorial : Int) ≤ 479001600 := by
            exact_mod_cast le_trans hub (by decide)
          have hnn : (0 : Int) ≤ ((Int.toNat (k + 1)).factorial : Int) :=
            Int.natCast_nonneg _
          exact wrap32_eq_self _ (le_trans (by norm_num) hnn)
            (lt_of_le_of_lt hubi (by norm_num))
    intro h1 h2
    exact main n h1 h2

/-- C9 counterexample: the claim's mathematical-factorial conclusion fails
at n = 13, where the fixture's 32-bit int multiplication overflows — the
wrapped result lies inside the int range while 13! = 6227020800 does not. -/
theorem factorial_int_overflow :
    (0 : Int) ≤ 13 ∧ factorial 13 ≠ ((Int.toNat 13).factorial : Int) := by
  refine ⟨by norm_num, ?_⟩
  have hrec : factorial 13 = wrap32 (13 * factorial 12) := by
    rw [factorial, if_neg (by norm_num)]
    norm_num
  have hv : ((Int.toNat 13).factorial : Int) = 6227020800 := by decide
  have hr := wrap32_range (13 * factorial 12)
  intro hc
  rw [hrec, hv] at hc
  have e31 : ((2 : Int) ^ 31) = 2147483648 := by norm_num
  rw [e31] at hr
  omega

/-- C9 witness: factorial applied at 4, inside the overflow-free range,
returns 24. -/
theorem factorial_terminates_correct_witness :
    (0 : Int) ≤ 4 ∧ (4 : Int) ≤ 12 ∧ factorial 4 = 24 := by
  refine ⟨by norm_num, by norm_num, ?_⟩
  have h := (factorial_terminates_correct 4).2.2 (by norm_num) (by norm_num)
  rw [h]
  decide

/-- C10: executing main of the matrix_multiply fixture produces exactly the
output recorded in its trailing expected-output comment, and multiply_2x2
computes the product with rows 19 22 and 43 50. -/
theorem matrix_multiply_fixture_output :
    multiply_2x2 matrixA matrixB = [[19, 22], [43, 50]] ∧
    matrix_multiply_main_output = matrix_multiply_expected := by
  refine ⟨by decide, by decide⟩

end C2Java
